import Mathlib

/-! # multi-party-sig: hash commitments and party ID slices

A shallow embedding of

* `pkg/hash/commit.go`: `Commitment.Validate`, `Decommitment.Validate`, `Hash.Commit`,
  `Hash.Decommit`, `Hash.computeCommitment`, and the two `WriteTo` methods;
* `pkg/party/idslice.go`: `NewIDSlice`, `Contains`, `Valid`, `Copy`, `Remove`, `Len`, `Less`,
  `Swap`, `sort`, `search`, `WriteTo`, `writeIdLen`.

Go byte slices are lists of bytes, a Go `string` is the list of its bytes (Go compares
strings byte-wise, lexicographically), a nil slice is `none` where the code tells nil from
empty, and a run-time panic (index out of range) is `none` in an `Option` result.

`Commit` and `Decommit` are embedded twice: on the absorbing state of the receiver, with
the calls they make on hash objects, and on a store of hash objects, with the store they
leave. The two `Validate` methods are embedded as functions of the value and as runs on
its memory.
-/

namespace MultiPartySig

/-- A Go `byte`. -/
abbrev Byte := Fin 256

/-- A Go `error` value, carried as its message. -/
abbrev Error := String

/-- The error `io.ErrUnexpectedEOF`. -/
def ErrUnexpectedEOF : Error := "unexpected EOF"

/-! ## `io.Writer` -/

/-- An `io.Writer`: an object with a state and a method `Write(p) (n int, err error)`. -/
structure Writer where
  /-- The states of the writer object. -/
  State : Type
  /-- The method `Write`: the count and error it returns, and the state it leaves. -/
  Write : State → List Byte → (Nat × Option Error) × State

/-- A `bytes.Buffer`: every write is accepted whole and appended. -/
def Buffer : Writer where
  State := List Byte
  Write := fun buf p => ((p.length, none), buf ++ p)

/-- The 8 bytes `binary.BigEndian` gives a `uint64`, most significant byte first. -/
def bigEndianUint64 (v : Nat) : List Byte :=
  (List.range 8).map (fun k => Fin.ofNat ((v % 2 ^ 64) / 256 ^ (7 - k)))

/-- The call `binary.Write(w, binary.BigEndian, uint64(v))`: one `Write` of 8 bytes, whose
error is returned. -/
def binaryWriteUint64 (W : Writer) (w : W.State) (v : Nat) : Option Error × W.State :=
  let r := W.Write w (bigEndianUint64 v)
  (r.1.2, r.2)

/-! ## Package `party`: `IDSlice` -/

namespace party

/-- The type `ID` is a Go `string`: its bytes, ordered lexicographically. -/
abbrev ID := List Byte

/-- The type `IDSlice` is `[]ID`. -/
abbrev IDSlice := List ID

/-- The loop of Go's `sort.Search(n, f)` on the window `i..j`; `fuel` bounds the number of
iterations (each one shrinks `j - i`), and `f` is only ever asked about indices below `n`.
The midpoint `int(uint(i+j) >> 1)` is `(i + j) / 2`: slice lengths stay below `2^63`. -/
def searchLoop (n : Nat) (f : Fin n → Bool) : (fuel i j : Nat) → j ≤ n → Nat
  | 0, i, _, _ => i
  | fuel + 1, i, j, hj =>
    if h : i < j then
      if !f ⟨(i + j) / 2, by omega⟩ then searchLoop n f fuel ((i + j) / 2 + 1) j hj
      else searchLoop n f fuel i ((i + j) / 2) (by omega)
    else i

/-- Go's `sort.Search(n, f)`: binary search for the least index in `[0, n)` at which `f` is
true, `n` when there is none. -/
def sortSearch (n : Nat) (f : Fin n → Bool) : Nat :=
  searchLoop n f n 0 n (Nat.le_refl n)

/-- The method `IDSlice.search`: the index `sort.Search` finds and `true` when the ID at that
index is `x`, else `(0, false)`. The test `index >= 0` always holds. -/
def IDSlice.search (partyIDs : IDSlice) (x : ID) : Nat × Bool :=
  let index := sortSearch partyIDs.length (fun i => decide (partyIDs.get i ≥ x))
  if index < partyIDs.length ∧ partyIDs[index]? = some x then (index, true) else (0, false)

/-- The method `IDSlice.Contains`: false at the first ID that `search` does not find. -/
def IDSlice.Contains (partyIDs : IDSlice) : List ID → Bool
  | [] => true
  | id :: ids => if !(partyIDs.search id).2 then false else IDSlice.Contains partyIDs ids

/-- The method `IDSlice.Copy`: element `i` of the fresh slice is element `i` of the receiver. -/
def IDSlice.Copy (partyIDs : IDSlice) : IDSlice :=
  List.ofFn (fun i : Fin partyIDs.length => partyIDs.get i)

/-- The method `IDSlice.Len`. -/
def IDSlice.Len (partyIDs : IDSlice) : Nat := partyIDs.length

/-- The method `IDSlice.Less`; `none` is the panic of an index out of range. -/
def IDSlice.Less (partyIDs : IDSlice) (i j : Nat) : Option Bool :=
  match partyIDs[i]?, partyIDs[j]? with
  | some a, some b => some (decide (a < b))
  | _, _ => none

/-- The method `IDSlice.Swap`; `none` is the panic of an index out of range. -/
def IDSlice.Swap (partyIDs : IDSlice) (i j : Nat) : Option IDSlice :=
  match partyIDs[i]?, partyIDs[j]? with
  | some a, some b => some ((partyIDs.set i b).set j a)
  | _, _ => none

/-- The inner loop of Go's `insertionSort(data, a, b)`:
`for j := i; j > a && data.Less(j, j-1); j-- { data.Swap(j, j-1) }`, started at `j`. -/
def insertionInner (a : Nat) : Nat → IDSlice → Option IDSlice
  | 0, s => some s
  | j + 1, s =>
    if j + 1 > a then
      match s.Less (j + 1) j with
      | none => none
      | some true =>
        match s.Swap (j + 1) j with
        | none => none
        | some s1 => insertionInner a j s1
      | some false => some s
    else some s

/-- The outer loop of Go's `insertionSort(data, a, b)`: `for i := a + 1; i < b; i++`, at `i`,
with `fuel` bounding the iterations left. -/
def insertionOuter (a b : Nat) : (fuel i : Nat) → IDSlice → Option IDSlice
  | 0, _, s => some s
  | fuel + 1, i, s =>
    if i < b then
      match insertionInner a i s with
      | none => none
      | some s1 => insertionOuter a b fuel (i + 1) s1
    else some s

/-- Go's `insertionSort(data, a, b)` of package `sort`, run on an `IDSlice` through its
`Less` and `Swap`. -/
def insertionSort (s : IDSlice) (a b : Nat) : Option IDSlice :=
  insertionOuter a b (b - (a + 1)) (a + 1) s

/-- Go's `sort.Sort(data)` on an `IDSlice`. The standard library sorts a slice of at most 12
elements with `insertionSort(data, 0, n)` and a longer one with a quicksort variant; since
`Less` is the strict total order of strings and equal IDs are indistinguishable, every
correct sort returns the same slice, and the insertion sort stands for all lengths. -/
def sortSort (data : IDSlice) : Option IDSlice :=
  insertionSort data 0 data.Len

/-- The method `IDSlice.sort`, which sorts the receiver in place: the receiver afterwards. -/
def IDSlice.sort (partyIDs : IDSlice) : Option IDSlice := sortSort partyIDs

/-- The function `NewIDSlice`: a copy of `partyIDs`, sorted. -/
def NewIDSlice (partyIDs : List ID) : Option IDSlice :=
  IDSlice.sort (IDSlice.Copy partyIDs)

/-- The function `writeIdLen`: one byte holding `len(id)`, refused for a longer ID. -/
def writeIdLen (W : Writer) (w : W.State) (id : ID) : (Nat × Option Error) × W.State :=
  if id.length > 255 then ((0, some "party ID too long"), w)
  else W.Write w [Fin.ofNat id.length]

/-- The loop of `IDSlice.WriteTo` over the IDs left, with the running count `nAll`. -/
def writeToLoop (W : Writer) : List ID → Nat → W.State → (Nat × Option Error) × W.State
  | [], nAll, w => ((nAll, none), w)
  | id :: rest, nAll, w =>
    match writeIdLen W w id with
    | ((_, some err), w1) => ((nAll, some err), w1)
    | ((_, none), w1) =>
      match W.Write w1 id with
      | ((n, some err), w2) => ((nAll + n, some err), w2)
      | ((n, none), w2) => writeToLoop W rest (nAll + n) w2

/-- The method `IDSlice.WriteTo`; the receiver `none` is the nil slice. -/
def IDSlice.WriteTo (W : Writer) (partyIDs : Option IDSlice) (w : W.State) :
    (Nat × Option Error) × W.State :=
  match partyIDs with
  | none => ((0, some ErrUnexpectedEOF), w)
  | some ids =>
    match binaryWriteUint64 W w ids.length with
    | (some err, w1) => ((0, some err), w1)
    | (none, w1) => writeToLoop W ids 4 w1

/-- The parts of `ID.Scalar` and of package `curve` that `Valid` uses and that are not in the
sources, taken as parameters: the curves, the scalars, the method `ID.Scalar(curve)` and the
method `Scalar.Equal`. -/
structure Scalars where
  /-- The values of type `curve.Curve`. -/
  Curve : Type
  /-- The values of type `curve.Scalar`. -/
  Scalar : Type
  /-- The method `ID.Scalar`: the scalar that stands for an ID on a curve. -/
  scalar : ID → Curve → Scalar
  /-- The method `Scalar.Equal`. -/
  Equal : Scalar → Scalar → Bool

/-- The first loop of `Valid`, `for i := 1; i < n; i++`, on the slice from element `i - 1`
on: false at the first pair of neighbours with `partyIDs[i-1] >= partyIDs[i]`. -/
def validOrderLoop : IDSlice → Bool
  | a :: b :: rest => if a ≥ b then false else validOrderLoop (b :: rest)
  | _ => true

/-- The inner loop of the second loop of `Valid`, `for j := i + 1; j < n; j++`, for the ID
`x` at index `i` and the IDs after it: true when the scalar of one of them is `Equal` to the
scalar of `x`. -/
def scalarCollides (O : Scalars) (curve : O.Curve) (x : ID) : IDSlice → Bool
  | [] => false
  | y :: rest =>
    if O.Equal (O.scalar x curve) (O.scalar y curve) then true
    else scalarCollides O curve x rest

/-- The second loop of `Valid`, `for i := 0; i < n; i++`, on the slice from element `i` on:
false at the first ID whose scalar is `Equal` to the scalar of a later one. -/
def validScalarLoop (O : Scalars) (curve : O.Curve) : IDSlice → Bool
  | [] => true
  | x :: rest =>
    if scalarCollides O curve x rest then false else validScalarLoop O curve rest

/-- The method `IDSlice.Valid`. -/
def IDSlice.Valid (O : Scalars) (partyIDs : IDSlice) (curve : O.Curve) : Bool :=
  if !validOrderLoop partyIDs then false else validScalarLoop O curve partyIDs

/-- The loop of `Remove` over the IDs left, with the slice `newPartyIDs` built so far. -/
def removeLoop (id : ID) : List ID → IDSlice → IDSlice
  | [], newPartyIDs => newPartyIDs
  | partyID :: rest, newPartyIDs =>
    if partyID ≠ id then removeLoop id rest (newPartyIDs ++ [partyID])
    else removeLoop id rest newPartyIDs

/-- The method `IDSlice.Remove`. -/
def IDSlice.Remove (partyIDs : IDSlice) (id : ID) : IDSlice :=
  removeLoop id partyIDs []

/-- For each ID one length byte followed by the bytes of the ID. -/
def encodeIDs : List ID → List Byte
  | [] => []
  | id :: rest => Fin.ofNat id.length :: (id ++ encodeIDs rest)

/-- The byte encoding of an `IDSlice`: the 8-byte big-endian count, then for each ID one
length byte followed by the bytes of the ID. -/
def idSliceEncoding (ids : IDSlice) : List Byte :=
  bigEndianUint64 ids.length ++ encodeIDs ids

/-- The number of bytes of that encoding: 8, and one more than its length for each ID. -/
def encodingSize (ids : IDSlice) : Nat :=
  8 + (ids.map (fun id => 1 + id.length)).sum

/-- The number a byte string denotes, most significant byte first. -/
def bigEndianNat (bs : List Byte) : Nat :=
  bs.foldl (fun acc b => acc * 256 + b.val) 0

/-- An instance of `Scalars`, for the method `ID.Scalar` that is not in the sources: a curve
is given by the order of its group, the scalar of an ID is the big-endian number of its bytes
reduced modulo that order, and `Equal` is equality of these numbers. -/
def numberScalars : Scalars where
  Curve := Nat
  Scalar := Nat
  scalar := fun id order => bigEndianNat id % order
  Equal := fun a b => decide (a = b)

/-- The order of the group of the curve secp256k1. -/
def secp256k1Order : Nat :=
  0xFFFFFFFFFFFFFFFFFFFFFFFFFFFFFFFEBAAEDCE6AF48A03BBFD25E8CD0364141

end party

/-! ## Package `hash`: commitments -/

namespace hash

/-- The type `Commitment` is `[]byte`. -/
abbrev Commitment := List Byte

/-- The type `Decommitment` is `[]byte`. -/
abbrev Decommitment := List Byte

/-- A call of a method of a `Hash` object, as recorded in program order. -/
inductive HashCall
  | clone
  | writeAny
  | sum
  deriving DecidableEq, Repr

/-- Modelled from the spec: the parts of packages `hash` and `params` that `commit.go` uses
and that are not in the sources, taken as parameters. These are the constants
`params.SecBytes` and `DigestLengthBytes`, and the `Hash` object with its methods `Clone`,
`WriteAny` and `Sum`. Per the spec, `clone()` gives an independent copy of the absorbing
state, `absorb` takes one value and can be refused, and `digest()` is a fixed-length output
of `DigestLengthBytes` bytes. Which digest function it is stays open. -/
structure Hash where
  /-- The constant `params.SecBytes`. -/
  SecBytes : Nat
  /-- The constant `DigestLengthBytes`. -/
  DigestLengthBytes : Nat
  /-- The absorbing states of a `Hash` object. -/
  State : Type
  /-- The values `WriteAny` is given (Go `interface{}`). -/
  Item : Type
  /-- A `Decommitment` passed as an `interface{}`. -/
  ofDecommitment : Decommitment → Item
  /-- The method `Clone`: the state of the new object. -/
  clone : State → State
  /-- The method `WriteAny` on one value: the error, or the state after absorbing it. -/
  writeAny : State → Item → Except Error State
  /-- The method `Sum`: the digest of what was absorbed. -/
  sum : State → List Byte
  /-- The digest has `DigestLengthBytes` bytes. -/
  sum_length : ∀ s, (sum s).length = DigestLengthBytes

/-- The error of a `Validate` method. -/
inductive ValidateError
  | incorrectLength (got expected : Nat)
  | isZero
  deriving DecidableEq, Repr

/-- The loop `for _, b := range c { if b != 0 { return nil } }`: true when it returns nil. -/
def findNonZero : List Byte → Bool
  | [] => false
  | b :: rest => if b ≠ 0 then true else findNonZero rest

/-- The method `Commitment.Validate`; `none` is the nil error. -/
def Commitment.Validate (H : Hash) (c : Commitment) : Option ValidateError :=
  if c.length ≠ H.DigestLengthBytes then
    some (ValidateError.incorrectLength c.length H.DigestLengthBytes)
  else if findNonZero c then none
  else some ValidateError.isZero

/-- The method `Decommitment.Validate`; `none` is the nil error. -/
def Decommitment.Validate (H : Hash) (d : Decommitment) : Option ValidateError :=
  if d.length ≠ H.SecBytes then
    some (ValidateError.incorrectLength d.length H.SecBytes)
  else if findNonZero d then none
  else some ValidateError.isZero

/-- The method `Commitment.WriteTo`; the receiver `none` is the nil slice. -/
def Commitment.WriteTo (W : Writer) (c : Option Commitment) (w : W.State) :
    (Nat × Option Error) × W.State :=
  match c with
  | none => ((0, some ErrUnexpectedEOF), w)
  | some bs => W.Write w bs

/-- The method `Decommitment.WriteTo`; the receiver `none` is the nil slice. -/
def Decommitment.WriteTo (W : Writer) (d : Option Decommitment) (w : W.State) :
    (Nat × Option Error) × W.State :=
  match d with
  | none => ((0, some ErrUnexpectedEOF), w)
  | some bs => W.Write w bs

/-- The loop of `computeCommitment` over `data`, on the clone `h`: the first error or the
state after the last item, with the calls made. -/
def absorbData (H : Hash) : H.State → List H.Item → Except Error H.State × List HashCall
  | h, [] => (Except.ok h, [])
  | h, item :: rest =>
    match H.writeAny h item with
    | Except.error err => (Except.error err, [HashCall.writeAny])
    | Except.ok h1 =>
      let r := absorbData H h1 rest
      (r.1, HashCall.writeAny :: r.2)

/-- The method `Hash.computeCommitment`: the digest of a clone of `hash` that absorbed `data`
and then `d`, or the first error, with the calls made on hash objects. -/
def computeCommitment (H : Hash) (hash : H.State) (data : List H.Item) (d : Decommitment) :
    Except Error Commitment × List HashCall :=
  let h := H.clone hash
  match absorbData H h data with
  | (Except.error err, calls) => (Except.error err, HashCall.clone :: calls)
  | (Except.ok h1, calls) =>
    match H.writeAny h1 (H.ofDecommitment d) with
    | Except.error err => (Except.error err, HashCall.clone :: (calls ++ [HashCall.writeAny]))
    | Except.ok h2 =>
      (Except.ok (H.sum h2), HashCall.clone :: (calls ++ [HashCall.writeAny, HashCall.sum]))

/-- The outcome of `rand.Read` on a buffer: an error, or the bytes it filled the buffer
with, byte `i` of the buffer being `fill i`. -/
inductive RandRead
  | fail (err : Error)
  | filled (fill : Nat → Byte)

/-- The method `Hash.Commit`, given the outcome of its `rand.Read`: the commitment and the
decommitment, or the error, with the calls made on hash objects. -/
def Commit (H : Hash) (hash : H.State) (rnd : RandRead) (data : List H.Item) :
    Except Error (Commitment × Decommitment) × List HashCall :=
  match rnd with
  | RandRead.fail err =>
    (Except.error ("hash.Commit: failed to generate decommitment: " ++ err), [])
  | RandRead.filled fill =>
    let decommitment : Decommitment := (List.range H.SecBytes).map fill
    match computeCommitment H hash data decommitment with
    | (Except.error err, calls) => (Except.error err, calls)
    | (Except.ok commitment, calls) => (Except.ok (commitment, decommitment), calls)

/-- The method `Hash.Decommit`: its boolean, with the calls made on hash objects. -/
def Decommit (H : Hash) (hash : H.State) (c : Commitment) (d : Decommitment)
    (data : List H.Item) : Bool × List HashCall :=
  match Commitment.Validate H c with
  | some _ => (false, [])
  | none =>
    match Decommitment.Validate H d with
    | some _ => (false, [])
    | none =>
      match computeCommitment H hash data d with
      | (Except.error _, calls) => (false, calls)
      | (Except.ok computedCommitment, calls) => (decide (computedCommitment = c), calls)

/-- Absorbing a list of values in order into a hash state, one `WriteAny` each: the state
after the last one, or the error of the first value refused. -/
def absorbInOrder (H : Hash) : H.State → List H.Item → Except Error H.State
  | h, [] => Except.ok h
  | h, item :: rest =>
    match H.writeAny h item with
    | Except.error err => Except.error err
    | Except.ok h1 => absorbInOrder H h1 rest

/-! ### A transcript instance of `Hash` -/

/-- The values absorbed in this development: raw bytes and the three `WriterToWithDomain`
types of the sources, each nil-able slice with `none` for nil. -/
inductive Value
  | bytes (b : List Byte)
  | commitment (c : Option Commitment)
  | decommitment (d : Option Decommitment)
  | idSlice (s : Option party.IDSlice)

/-- The bytes of a Go string constant (ASCII here). -/
def stringBytes (s : String) : List Byte := s.toList.map (fun ch => Fin.ofNat ch.toNat)

/-- The `Domain()` of a value: the type-specific tag of the sources, `"[]byte"` for raw
bytes. -/
def Value.Domain : Value → List Byte
  | Value.bytes _ => stringBytes "[]byte"
  | Value.commitment _ => stringBytes "Commitment"
  | Value.decommitment _ => stringBytes "Decommitment"
  | Value.idSlice _ => stringBytes "IDSlice"

/-- The encoding a value writes into a fresh buffer with its `WriteTo`, or the error of that
`WriteTo`; raw bytes are written as they are. -/
def Value.encode : Value → Except Error (List Byte)
  | Value.bytes b => Except.ok b
  | Value.commitment c =>
    match Commitment.WriteTo Buffer c [] with
    | ((_, some err), _) => Except.error err
    | ((_, none), buf) => Except.ok buf
  | Value.decommitment d =>
    match Decommitment.WriteTo Buffer d [] with
    | ((_, some err), _) => Except.error err
    | ((_, none), buf) => Except.ok buf
  | Value.idSlice s =>
    match party.IDSlice.WriteTo Buffer s [] with
    | ((_, some err), _) => Except.error err
    | ((_, none), buf) => Except.ok buf

/-- Modelled from the spec: `absorb(domain-tagged value)` of the transcript, which is not in
the sources. It appends the domain tag of the value and its length-prefixed encoding to what
was absorbed; a value whose `WriteTo` fails is refused with that error (every failure
surfaces to the immediate caller). -/
def transcriptWriteAny (absorbed : List Byte) (v : Value) : Except Error (List Byte) :=
  match v.encode with
  | Except.error err => Except.error err
  | Except.ok enc => Except.ok (absorbed ++ v.Domain ++ bigEndianUint64 enc.length ++ enc)

/-- A stand-in digest of `n` bytes: byte `i` is the sum of the absorbed bytes plus `i + 1`,
modulo 256. The digest function of the library is not in the sources; this one is used only
where the value of the digest does not matter. -/
def checksumDigest (n : Nat) (absorbed : List Byte) : List Byte :=
  (List.range n).map (fun i => Fin.ofNat ((absorbed.map Fin.val).sum + i + 1))

/-- Modelled from the spec: a transcript as an instance of `Hash`, with the state the bytes
absorbed so far, `clone` the copy of that state, `absorb` as in `transcriptWriteAny`, a
32-byte decommitment and a 64-byte digest. -/
def transcriptHash : Hash where
  SecBytes := 32
  DigestLengthBytes := 64
  State := List Byte
  Item := Value
  ofDecommitment := fun d => Value.decommitment (some d)
  clone := fun s => s
  writeAny := transcriptWriteAny
  sum := checksumDigest 64
  sum_length := fun s => by simp [checksumDigest]

/-- The bytes of the string `hello`. -/
def hello : List Byte := stringBytes "hello"

/-- An entropy source that fills the buffer with zero bytes. -/
def zeroFill : RandRead := RandRead.filled (fun _ => 0)

/-- An entropy source that fills the buffer with the bytes 1, 2, 3, ... -/
def countFill : RandRead := RandRead.filled (fun i => Fin.ofNat (i + 1))

/-- The commitment and decommitment that `Commit` returns for `hello` on the empty
transcript with the entropy source `countFill`. -/
def helloOpening : Commitment × Decommitment :=
  match (Commit transcriptHash [] countFill [Value.bytes hello]).1 with
  | Except.ok opening => opening
  | Except.error _ => ([], [])

/-- A party ID of 256 zero bytes, one byte more than `writeIdLen` accepts. -/
def longID : party.ID := List.replicate 256 0

/-! ### `Validate` as a run on memory -/

/-- The loop `for _, b := range c { if b != 0 { return nil } }` run on the backing array
`mem` of the slice, from index `i` with `remaining` elements to go: whether it returned nil,
and the backing array after the loop. The loop reads `mem[i]` and writes nothing. -/
def scanNonZero (mem : List Byte) : (i remaining : Nat) → Bool × List Byte
  | _, 0 => (false, mem)
  | i, remaining + 1 =>
    match mem[i]? with
    | none => (false, mem)
    | some b => if b ≠ 0 then (true, mem) else scanNonZero mem (i + 1) remaining

/-- The body shared by the two `Validate` methods, run on the backing array `mem` of the
receiver with the expected length `expected`: the error (`none` is nil) and the backing
array after the call. -/
def validateRun (expected : Nat) (mem : List Byte) : Option ValidateError × List Byte :=
  if mem.length ≠ expected then
    (some (ValidateError.incorrectLength mem.length expected), mem)
  else
    match scanNonZero mem 0 mem.length with
    | (true, mem1) => (none, mem1)
    | (false, mem1) => (some ValidateError.isZero, mem1)

/-- The method `Commitment.Validate` as a run on the memory of the commitment. -/
def Commitment.ValidateRun (H : Hash) (mem : Commitment) :
    Option ValidateError × Commitment :=
  validateRun H.DigestLengthBytes mem

/-- The method `Decommitment.Validate` as a run on the memory of the decommitment. -/
def Decommitment.ValidateRun (H : Hash) (mem : Decommitment) :
    Option ValidateError × Decommitment :=
  validateRun H.SecBytes mem

/-! ### `Commit` and `Decommit` on a store of hash objects -/

/-- Modelled from the spec: the `Hash` objects of a program, which are not in the sources.
Object `a` has the absorbing state `cells a`, and the objects allocated so far are those
below `next`. -/
structure Store (H : Hash) where
  /-- The absorbing state of each object. -/
  cells : Nat → H.State
  /-- The address of the next object to allocate. -/
  next : Nat

/-- Modelled from the spec: the method `Clone` on object `a`, an independent copy of the
absorbing state in a fresh object. The store afterwards and the new object. -/
def Store.Clone {H : Hash} (st : Store H) (a : Nat) : Store H × Nat :=
  ({ cells := Function.update st.cells st.next (H.clone (st.cells a)),
     next := st.next + 1 }, st.next)

/-- Modelled from the spec: the method `WriteAny` on object `a`, which changes the state of
that object only. A refused value leaves the object in the state `refused` gives. -/
def Store.WriteAny {H : Hash} (refused : H.State → H.Item → H.State) (st : Store H)
    (a : Nat) (item : H.Item) : Option Error × Store H :=
  match H.writeAny (st.cells a) item with
  | Except.error err =>
    (some err, { st with cells := Function.update st.cells a (refused (st.cells a) item) })
  | Except.ok s => (none, { st with cells := Function.update st.cells a s })

/-- Modelled from the spec: the method `Sum` on object `a`, which reads its state. -/
def Store.Sum {H : Hash} (st : Store H) (a : Nat) : List Byte :=
  H.sum (st.cells a)

/-- The loop of `computeCommitment` over `data`, on the object `h` of the store. -/
def absorbDataIn {H : Hash} (refused : H.State → H.Item → H.State) :
    Store H → Nat → List H.Item → Option Error × Store H
  | st, _, [] => (none, st)
  | st, h, item :: rest =>
    match Store.WriteAny refused st h item with
    | (some err, st1) => (some err, st1)
    | (none, st1) => absorbDataIn refused st1 h rest

/-- The method `Hash.computeCommitment` with the receiver the object `hash` of the store:
its result and the store afterwards. -/
def computeCommitmentIn {H : Hash} (refused : H.State → H.Item → H.State) (st : Store H)
    (hash : Nat) (data : List H.Item) (d : Decommitment) :
    Except Error Commitment × Store H :=
  match Store.Clone st hash with
  | (st0, h) =>
    match absorbDataIn refused st0 h data with
    | (some err, st1) => (Except.error err, st1)
    | (none, st1) =>
      match Store.WriteAny refused st1 h (H.ofDecommitment d) with
      | (some err, st2) => (Except.error err, st2)
      | (none, st2) => (Except.ok (Store.Sum st2 h), st2)

/-- The method `Hash.Commit` with the receiver the object `hash` of the store: its result and
the store afterwards. -/
def CommitIn {H : Hash} (refused : H.State → H.Item → H.State) (st : Store H) (hash : Nat)
    (rnd : RandRead) (data : List H.Item) :
    Except Error (Commitment × Decommitment) × Store H :=
  match rnd with
  | RandRead.fail err =>
    (Except.error ("hash.Commit: failed to generate decommitment: " ++ err), st)
  | RandRead.filled fill =>
    let decommitment : Decommitment := (List.range H.SecBytes).map fill
    match computeCommitmentIn refused st hash data decommitment with
    | (Except.error err, st1) => (Except.error err, st1)
    | (Except.ok commitment, st1) => (Except.ok (commitment, decommitment), st1)

/-- The method `Hash.Decommit` with the receiver the object `hash` of the store: its boolean
and the store afterwards. -/
def DecommitIn {H : Hash} (refused : H.State → H.Item → H.State) (st : Store H) (hash : Nat)
    (c : Commitment) (d : Decommitment) (data : List H.Item) : Bool × Store H :=
  match Commitment.Validate H c with
  | some _ => (false, st)
  | none =>
    match Decommitment.Validate H d with
    | some _ => (false, st)
    | none =>
      match computeCommitmentIn refused st hash data d with
      | (Except.error _, st1) => (false, st1)
      | (Except.ok computedCommitment, st1) => (decide (computedCommitment = c), st1)

/-- A store with one transcript object, at address 0, that absorbed the bytes 1, 2, 3. -/
def oneTranscript : Store transcriptHash where
  cells := fun _ => [1, 2, 3]
  next := 1

/-- A refused `WriteAny` that leaves its object with what it had absorbed. -/
def refusedKeeps : List Byte → Value → List Byte := fun absorbed _ => absorbed

/-- The transcript instance with a digest of 64 zero bytes: a degenerate digest, to show
what `Decommit` does with an all-zero commitment. -/
def zeroDigestHash : Hash where
  SecBytes := 32
  DigestLengthBytes := 64
  State := List Byte
  Item := Value
  ofDecommitment := fun d => Value.decommitment (some d)
  clone := fun s => s
  writeAny := transcriptWriteAny
  sum := fun _ => List.replicate 64 0
  sum_length := fun _ => by simp

end hash

/-! ## Theorems -/

namespace hash

theorem findNonZero_iff (l : List Byte) : findNonZero l = true ↔ ∃ b ∈ l, b ≠ 0 := by
  induction l with
  | nil => simp [findNonZero]
  | cons a rest ih =>
    by_cases ha : a = 0
    · simp [findNonZero, ha, ih]
    · simp [findNonZero, ha]

theorem Commitment_Validate_none_iff (H : Hash) (c : Commitment) :
    Commitment.Validate H c = none ↔ c.length = H.DigestLengthBytes ∧ ∃ b ∈ c, b ≠ 0 := by
  unfold Commitment.Validate
  by_cases hl : c.length = H.DigestLengthBytes
  · by_cases hz : findNonZero c = true
    · simp [hl, hz, (findNonZero_iff c).mp hz]
    · have hz2 : ¬ ∃ b ∈ c, b ≠ 0 := fun h => hz ((findNonZero_iff c).mpr h)
      simp [hl, hz, hz2]
  · simp [hl]

theorem Decommitment_Validate_none_iff (H : Hash) (d : Decommitment) :
    Decommitment.Validate H d = none ↔ d.length = H.SecBytes ∧ ∃ b ∈ d, b ≠ 0 := by
  unfold Decommitment.Validate
  by_cases hl : d.length = H.SecBytes
  · by_cases hz : findNonZero d = true
    · simp [hl, hz, (findNonZero_iff d).mp hz]
    · have hz2 : ¬ ∃ b ∈ d, b ≠ 0 := fun h => hz ((findNonZero_iff d).mpr h)
      simp [hl, hz, hz2]
  · simp [hl]

theorem absorbData_fst (H : Hash) (h : H.State) (data : List H.Item) :
    (absorbData H h data).1 = absorbInOrder H h data := by
  induction data generalizing h with
  | nil => rfl
  | cons item rest ih =>
    simp only [absorbData, absorbInOrder]
    cases H.writeAny h item with
    | error err => rfl
    | ok h1 => exact ih h1

theorem absorbInOrder_append (H : Hash) (h : H.State) (xs ys : List H.Item) :
    absorbInOrder H h (xs ++ ys) =
      match absorbInOrder H h xs with
      | Except.error err => Except.error err
      | Except.ok h1 => absorbInOrder H h1 ys := by
  induction xs generalizing h with
  | nil => rfl
  | cons item rest ih =>
    simp only [List.cons_append, absorbInOrder]
    cases H.writeAny h item with
    | error err => rfl
    | ok h1 => exact ih h1

theorem computeCommitment_fst (H : Hash) (hash : H.State) (data : List H.Item)
    (d : Decommitment) :
    (computeCommitment H hash data d).1 =
      match absorbInOrder H (H.clone hash) (data ++ [H.ofDecommitment d]) with
      | Except.error err => Except.error err
      | Except.ok s => Except.ok (H.sum s) := by
  rw [absorbInOrder_append, ← absorbData_fst]
  simp only [computeCommitment]
  generalize absorbData H (H.clone hash) data = r
  rcases r with ⟨r, calls⟩
  cases r with
  | error err => rfl
  | ok h1 =>
    simp only [absorbInOrder]
    cases H.writeAny h1 (H.ofDecommitment d) with
    | error err => rfl
    | ok h2 => rfl

theorem computeCommitment_calls_ne_nil (H : Hash) (hash : H.State) (data : List H.Item)
    (d : Decommitment) : (computeCommitment H hash data d).2 ≠ [] := by
  simp only [computeCommitment]
  generalize absorbData H (H.clone hash) data = r
  rcases r with ⟨r, calls⟩
  cases r with
  | error err => simp
  | ok h1 =>
    simp only []
    cases H.writeAny h1 (H.ofDecommitment d) with
    | error err => simp
    | ok h2 => simp

theorem Decommit_fst_true_iff (H : Hash) (hash : H.State) (c : Commitment)
    (d : Decommitment) (data : List H.Item) :
    (Decommit H hash c d data).1 = true ↔
      Commitment.Validate H c = none ∧ Decommitment.Validate H d = none ∧
        (computeCommitment H hash data d).1 = Except.ok c := by
  unfold Decommit
  cases hc : Commitment.Validate H c with
  | some e => simp
  | none =>
    cases hd : Decommitment.Validate H d with
    | some e => simp
    | none =>
      rcases hr : computeCommitment H hash data d with ⟨r, calls⟩
      cases r with
      | error err => simp
      | ok cc => simp

theorem Commit_fst_ok_iff (H : Hash) (hash : H.State) (rnd : RandRead) (data : List H.Item)
    (c : Commitment) (d : Decommitment) :
    (Commit H hash rnd data).1 = Except.ok (c, d) ↔
      ∃ fill, rnd = RandRead.filled fill ∧ d = (List.range H.SecBytes).map fill ∧
        (computeCommitment H hash data d).1 = Except.ok c := by
  unfold Commit
  cases rnd with
  | fail err => simp
  | filled fill =>
    simp only [RandRead.filled.injEq, exists_eq_left']
    rcases hr : computeCommitment H hash data ((List.range H.SecBytes).map fill)
      with ⟨r, calls⟩
    cases r with
    | error err =>
      simp only [reduceCtorEq, false_iff, not_and]
      intro hd
      rw [hd, hr]
      simp
    | ok cc =>
      simp only [Except.ok.injEq, Prod.mk.injEq]
      constructor
      · rintro ⟨h1, h2⟩
        refine ⟨h2.symm, ?_⟩
        rw [← h2, hr, h1]
      · rintro ⟨h1, h2⟩
        rw [h1, hr] at h2
        simp only [Except.ok.injEq] at h2
        exact ⟨h2, h1.symm⟩

/-- C1 (as amended): if `Commit` succeeds and returns `(c, d)`, and neither `c` nor `d`
consists only of zero bytes, then `Decommit` on the same hash state and the same values
returns true. -/
theorem Commit_Decommit_roundtrip (H : Hash) (hash : H.State) (rnd : RandRead)
    (data : List H.Item) (c : Commitment) (d : Decommitment)
    (hcommit : (Commit H hash rnd data).1 = Except.ok (c, d))
    (hc : ∃ b ∈ c, b ≠ 0) (hd : ∃ b ∈ d, b ≠ 0) :
    (Decommit H hash c d data).1 = true := by
  obtain ⟨fill, -, hfill, hcomp⟩ := (Commit_fst_ok_iff H hash rnd data c d).mp hcommit
  rw [Decommit_fst_true_iff, Commitment_Validate_none_iff, Decommitment_Validate_none_iff]
  refine ⟨⟨?_, hc⟩, ⟨?_, hd⟩, hcomp⟩
  · rw [computeCommitment_fst] at hcomp
    cases hs : absorbInOrder H (H.clone hash) (data ++ [H.ofDecommitment d]) with
    | error err => rw [hs] at hcomp; simp at hcomp
    | ok s =>
      rw [hs] at hcomp
      simp only [Except.ok.injEq] at hcomp
      rw [← hcomp]
      exact H.sum_length s
  · rw [hfill]
    simp

/-- C1, witness: the transcript commits to `hello` with the decommitment 1, 2, ..., 32, and
that commitment is opened by `hello`. -/
theorem Commit_Decommit_roundtrip_witness :
    ∃ c d, (Commit transcriptHash [] countFill [Value.bytes hello]).1 = Except.ok (c, d) ∧
      (∃ b ∈ c, b ≠ 0) ∧ (∃ b ∈ d, b ≠ 0) ∧
      (Decommit transcriptHash [] c d [Value.bytes hello]).1 = true :=
  ⟨_, _, rfl, by decide, by decide,
    Commit_Decommit_roundtrip transcriptHash [] countFill [Value.bytes hello] _ _ rfl
      (by decide) (by decide)⟩

/-- C1, counterexample: when the entropy source fills the decommitment with zero bytes,
`Commit` on `hello` succeeds and returns `(c, d)` with `d` 32 zero bytes, and `Decommit` of
that pair on the same state and value returns false. -/
theorem Commit_Decommit_zero_decommitment :
    ∃ c d, (Commit transcriptHash [] zeroFill [Value.bytes hello]).1 = Except.ok (c, d) ∧
      d = List.replicate 32 0 ∧
      (Decommit transcriptHash [] c d [Value.bytes hello]).1 = false :=
  ⟨_, _, rfl, by decide, by decide⟩

/-- The zero decommitment is refused whatever the hash is: with an entropy source that
returns zero bytes, no commitment that `Commit` returns is opened by `Decommit`. -/
theorem Commit_zeroFill_never_opens (H : Hash) (hash : H.State) (data : List H.Item)
    (c : Commitment) (d : Decommitment)
    (hcommit : (Commit H hash zeroFill data).1 = Except.ok (c, d)) :
    (Decommit H hash c d data).1 = false := by
  obtain ⟨fill, hf, hfill, -⟩ := (Commit_fst_ok_iff H hash zeroFill data c d).mp hcommit
  have hfz : fill = fun _ => 0 := by
    simp only [zeroFill, RandRead.filled.injEq] at hf
    exact hf.symm
  have hne : ¬ (Decommit H hash c d data).1 = true := by
    rw [Decommit_fst_true_iff, Decommitment_Validate_none_iff]
    rintro ⟨-, ⟨-, b, hb, hb0⟩, -⟩
    rw [hfill, hfz] at hb
    simp only [List.mem_map] at hb
    obtain ⟨i, -, hi⟩ := hb
    exact hb0 hi.symm
  simpa using hne

/-- A commitment of zero bytes is refused as well: with a digest that is all zero, `Commit`
on `hello` succeeds with the decommitment 1, 2, ..., 32, and `Decommit` of what it returned
is false. -/
theorem Commit_zero_digest_not_opened :
    ∃ c d, (Commit zeroDigestHash [] countFill [Value.bytes hello]).1 = Except.ok (c, d) ∧
      c = List.replicate 64 0 ∧ (∃ b ∈ d, b ≠ 0) ∧
      (Decommit zeroDigestHash [] c d [Value.bytes hello]).1 = false :=
  ⟨_, _, rfl, rfl, by decide, by decide⟩

/-- C2: `Decommit` returns true exactly when `c` has `DigestLengthBytes` bytes, one of them
not zero, `d` has `SecBytes` bytes, one of them not zero, absorbing `data` in order and then
`d` into a clone of the hash succeeds, and the digest of the result is `c`; and it makes no
call on any hash object exactly when `c` or `d` fails its length or non-zero check (in which
case, by the first part, it returns false). -/
theorem Decommit_true_iff (H : Hash) (hash : H.State) (c : Commitment) (d : Decommitment)
    (data : List H.Item) :
    ((Decommit H hash c d data).1 = true ↔
      c.length = H.DigestLengthBytes ∧ (∃ b ∈ c, b ≠ 0) ∧
      d.length = H.SecBytes ∧ (∃ b ∈ d, b ≠ 0) ∧
      ∃ s, absorbInOrder H (H.clone hash) (data ++ [H.ofDecommitment d]) = Except.ok s ∧
        H.sum s = c) ∧
    ((Decommit H hash c d data).2 = [] ↔
      ¬ (c.length = H.DigestLengthBytes ∧ (∃ b ∈ c, b ≠ 0) ∧
        d.length = H.SecBytes ∧ (∃ b ∈ d, b ≠ 0))) ∧
    (¬ (c.length = H.DigestLengthBytes ∧ (∃ b ∈ c, b ≠ 0) ∧
        d.length = H.SecBytes ∧ (∃ b ∈ d, b ≠ 0)) →
      Decommit H hash c d data = (false, [])) := by
  refine ⟨?_, ?_, ?_⟩
  · rw [Decommit_fst_true_iff, Commitment_Validate_none_iff, Decommitment_Validate_none_iff,
      computeCommitment_fst]
    cases absorbInOrder H (H.clone hash) (data ++ [H.ofDecommitment d]) with
    | error err => simp
    | ok s => simp [and_assoc]
  · rw [← and_assoc, ← Commitment_Validate_none_iff, ← and_assoc, and_assoc (a := _ = none),
      ← Decommitment_Validate_none_iff]
    unfold Decommit
    cases hc : Commitment.Validate H c with
    | some e => simp
    | none =>
      cases hd : Decommitment.Validate H d with
      | some e => simp
      | none =>
        have hne := computeCommitment_calls_ne_nil H hash data d
        rcases hr : computeCommitment H hash data d with ⟨r, calls⟩
        rw [hr] at hne
        cases r with
        | error err => simpa using hne
        | ok cc => simpa using hne
  · rw [← and_assoc, ← Commitment_Validate_none_iff, ← and_assoc, and_assoc (a := _ = none),
      ← Decommitment_Validate_none_iff]
    unfold Decommit
    cases hc : Commitment.Validate H c with
    | some e => simp
    | none =>
      cases hd : Decommitment.Validate H d with
      | some e => simp
      | none => simp

/-- C2, witness: a commitment of 63 bytes is refused without a call on the hash. -/
theorem Decommit_true_iff_witness :
    Decommit transcriptHash [] (List.replicate 63 1) helloOpening.2 [Value.bytes hello]
      = (false, []) :=
  (Decommit_true_iff transcriptHash [] (List.replicate 63 1) helloOpening.2
    [Value.bytes hello]).2.2 (fun h => absurd h.1 (by decide))

/-- C3: `Decommit` returns false when the commitment consists only of zero bytes, and when
the decommitment consists only of zero bytes, whatever the hash state, the values and the
other argument are. -/
theorem Decommit_rejects_zero (H : Hash) (hash : H.State) (c : Commitment)
    (d : Decommitment) (data : List H.Item)
    (hzero : (∀ b ∈ c, b = 0) ∨ (∀ b ∈ d, b = 0)) :
    (Decommit H hash c d data).1 = false := by
  have hne : ¬ (Decommit H hash c d data).1 = true := by
    rw [Decommit_fst_true_iff, Commitment_Validate_none_iff, Decommitment_Validate_none_iff]
    rintro ⟨⟨-, b, hb, hb0⟩, ⟨-, b2, hb2, hb20⟩, -⟩
    rcases hzero with hz | hz
    · exact hb0 (hz b hb)
    · exact hb20 (hz b2 hb2)
  simpa using hne

/-- C3, witness: the 32-byte zero decommitment is refused with the very commitment that
`computeCommitment` computes for it. -/
theorem Decommit_rejects_zero_witness :
    ∃ c, (computeCommitment transcriptHash [] [Value.bytes hello] (List.replicate 32 0)).1
        = Except.ok c ∧
      (∀ b ∈ List.replicate 32 (0 : Byte), b = 0) ∧
      (Decommit transcriptHash [] c (List.replicate 32 0) [Value.bytes hello]).1 = false :=
  ⟨_, rfl, by simp,
    Decommit_rejects_zero transcriptHash [] _ (List.replicate 32 0) [Value.bytes hello]
      (Or.inr (by simp))⟩

/-- C5: if `Decommit` returns true for `c`, then it returns false for every commitment got
from `c` by changing the value of one byte (byte `i` set to a different value `b`). -/
theorem Decommit_commitment_byte_changed (H : Hash) (hash : H.State) (c : Commitment)
    (d : Decommitment) (data : List H.Item) (i : Nat) (b : Byte)
    (hopen : (Decommit H hash c d data).1 = true)
    (hi : i < c.length) (hb : c.get ⟨i, hi⟩ ≠ b) :
    (Decommit H hash (c.set i b) d data).1 = false := by
  have hne : ¬ (Decommit H hash (c.set i b) d data).1 = true := by
    rw [Decommit_fst_true_iff] at hopen ⊢
    rintro ⟨-, -, hcomp⟩
    rw [hopen.2.2] at hcomp
    simp only [Except.ok.injEq] at hcomp
    apply hb
    have hget := congrArg (fun l : List Byte => l[i]?) hcomp
    simp only [List.getElem?_set_self hi, List.getElem?_eq_getElem hi, Option.some.injEq]
      at hget
    exact hget
  simpa using hne

/-- C5, witness: the commitment to `hello` is opened by its decommitment, its first byte is
not zero, and with the first byte set to zero it is no longer opened. -/
theorem Decommit_commitment_byte_changed_witness :
    (Decommit transcriptHash [] helloOpening.1 helloOpening.2 [Value.bytes hello]).1 = true ∧
    ∃ hi : 0 < helloOpening.1.length, helloOpening.1.get ⟨0, hi⟩ ≠ 0 ∧
      (Decommit transcriptHash [] (helloOpening.1.set 0 0) helloOpening.2
        [Value.bytes hello]).1 = false :=
  ⟨by decide, by decide, by decide,
    Decommit_commitment_byte_changed transcriptHash [] helloOpening.1 helloOpening.2
      [Value.bytes hello] 0 0 (by decide) (by decide) (by decide)⟩

/-- C6: whenever `Commit` succeeds and returns `(c, d)`, `c` has `DigestLengthBytes` bytes and
`d` has `SecBytes` bytes, so neither `Validate` reports an incorrect length. -/
theorem Commit_lengths (H : Hash) (hash : H.State) (rnd : RandRead) (data : List H.Item)
    (c : Commitment) (d : Decommitment)
    (hcommit : (Commit H hash rnd data).1 = Except.ok (c, d)) :
    c.length = H.DigestLengthBytes ∧ d.length = H.SecBytes ∧
      (∀ got expected, Commitment.Validate H c
        ≠ some (ValidateError.incorrectLength got expected)) ∧
      (∀ got expected, Decommitment.Validate H d
        ≠ some (ValidateError.incorrectLength got expected)) := by
  obtain ⟨fill, -, hfill, hcomp⟩ := (Commit_fst_ok_iff H hash rnd data c d).mp hcommit
  have hclen : c.length = H.DigestLengthBytes := by
    rw [computeCommitment_fst] at hcomp
    cases hs : absorbInOrder H (H.clone hash) (data ++ [H.ofDecommitment d]) with
    | error err => rw [hs] at hcomp; simp at hcomp
    | ok s =>
      rw [hs] at hcomp
      simp only [Except.ok.injEq] at hcomp
      rw [← hcomp]
      exact H.sum_length s
  have hdlen : d.length = H.SecBytes := by rw [hfill]; simp
  refine ⟨hclen, hdlen, ?_, ?_⟩
  · intro got expected
    unfold Commitment.Validate
    rw [if_neg (by simpa using hclen)]
    split <;> simp
  · intro got expected
    unfold Decommitment.Validate
    rw [if_neg (by simpa using hdlen)]
    split <;> simp

/-- C6, witness: the commitment to `hello` has 64 bytes and its decommitment 32. -/
theorem Commit_lengths_witness :
    (Commit transcriptHash [] countFill [Value.bytes hello]).1 = Except.ok helloOpening ∧
    helloOpening.1.length = 64 ∧ helloOpening.2.length = 32 :=
  ⟨rfl,
    (Commit_lengths transcriptHash [] countFill [Value.bytes hello] helloOpening.1
      helloOpening.2 rfl).1,
    (Commit_lengths transcriptHash [] countFill [Value.bytes hello] helloOpening.1
      helloOpening.2 rfl).2.1⟩

/-- C7 (as amended): when the entropy source fills the decommitment `d`, `Commit` returns a
commitment and `d` with a nil error if every `WriteAny` on the clone succeeds (the values in
order, then `d`), the commitment being the digest of the clone; and it returns the error of
the first `WriteAny` that fails otherwise. -/
theorem Commit_of_entropy (H : Hash) (hash : H.State) (fill : Nat → Byte)
    (data : List H.Item) :
    (Commit H hash (RandRead.filled fill) data).1 =
      match absorbInOrder H (H.clone hash)
        (data ++ [H.ofDecommitment ((List.range H.SecBytes).map fill)]) with
      | Except.error err => Except.error err
      | Except.ok s => Except.ok (H.sum s, (List.range H.SecBytes).map fill) := by
  have hcomp := computeCommitment_fst H hash data ((List.range H.SecBytes).map fill)
  simp only [Commit]
  rcases hr : computeCommitment H hash data ((List.range H.SecBytes).map fill)
    with ⟨r, calls⟩
  rw [hr] at hcomp
  cases hs : absorbInOrder H (H.clone hash)
      (data ++ [H.ofDecommitment ((List.range H.SecBytes).map fill)]) with
  | error err =>
    rw [hs] at hcomp
    simp only at hcomp
    simp [hcomp]
  | ok s =>
    rw [hs] at hcomp
    simp only at hcomp
    simp [hcomp]

set_option maxRecDepth 8192 in
/-- C7, counterexample: the entropy source delivers the 32 bytes 1, 2, ..., 32, and `Commit`
to an `IDSlice` holding one ID of 256 bytes returns the error of that value's `WriteTo`,
after the calls `Clone` and one `WriteAny`. -/
theorem Commit_fails_with_entropy :
    Commit transcriptHash [] countFill [Value.idSlice (some [longID])] =
      (Except.error "party ID too long", [HashCall.clone, HashCall.writeAny]) :=
  rfl

theorem scanNonZero_eq (mem : List Byte) (i remaining : Nat)
    (h : i + remaining = mem.length) :
    scanNonZero mem i remaining = (findNonZero (mem.drop i), mem) := by
  induction remaining generalizing i with
  | zero =>
    have hi : mem.length ≤ i := by omega
    simp [scanNonZero, List.drop_eq_nil_of_le hi, findNonZero]
  | succ k ih =>
    have hi : i < mem.length := by omega
    have hdrop : mem.drop i = mem[i] :: mem.drop (i + 1) := List.drop_eq_getElem_cons hi
    simp only [scanNonZero, List.getElem?_eq_getElem hi, hdrop, findNonZero]
    by_cases hb : mem[i] ≠ 0
    · simp [hb]
    · simp only [hb, if_false]
      exact ih (i + 1) (by omega)

theorem validateRun_eq (expected : Nat) (mem : List Byte) :
    validateRun expected mem =
      (if mem.length ≠ expected then
          some (ValidateError.incorrectLength mem.length expected)
        else if findNonZero mem then none else some ValidateError.isZero, mem) := by
  unfold validateRun
  by_cases hl : mem.length ≠ expected
  · simp [hl]
  · rw [if_neg hl, if_neg hl, scanNonZero_eq mem 0 mem.length (by omega)]
    cases hz : findNonZero mem <;> simp [hz]

/-- C14: run on the memory of the value, each `Validate` returns the error that depends on
the value only and leaves the memory as it was, so a second call on the same value returns
the same result: both nil, or both the same error. -/
theorem Validate_idempotent (H : Hash) (c : Commitment) (d : Decommitment) :
    (Commitment.ValidateRun H c = (Commitment.Validate H c, c) ∧
      Commitment.ValidateRun H (Commitment.ValidateRun H c).2 = Commitment.ValidateRun H c) ∧
    (Decommitment.ValidateRun H d = (Decommitment.Validate H d, d) ∧
      Decommitment.ValidateRun H (Decommitment.ValidateRun H d).2
        = Decommitment.ValidateRun H d) := by
  have hc : Commitment.ValidateRun H c = (Commitment.Validate H c, c) := by
    rw [Commitment.ValidateRun, validateRun_eq, Commitment.Validate]
  have hd : Decommitment.ValidateRun H d = (Decommitment.Validate H d, d) := by
    rw [Decommitment.ValidateRun, validateRun_eq, Decommitment.Validate]
  exact ⟨⟨hc, by rw [hc]; exact hc⟩, ⟨hd, by rw [hd]; exact hd⟩⟩
theorem Store_WriteAny_frame {H : Hash} (refused : H.State → H.Item → H.State)
    (st : Store H) (h : Nat) (item : H.Item) (a : Nat) (ha : a ≠ h) :
    (Store.WriteAny refused st h item).2.cells a = st.cells a := by
  unfold Store.WriteAny
  cases H.writeAny (st.cells h) item with
  | error err => simp [Function.update_noteq ha]
  | ok s => simp [Function.update_noteq ha]

theorem absorbDataIn_frame {H : Hash} (refused : H.State → H.Item → H.State)
    (st : Store H) (h : Nat) (data : List H.Item) (a : Nat) (ha : a ≠ h) :
    (absorbDataIn refused st h data).2.cells a = st.cells a := by
  induction data generalizing st with
  | nil => rfl
  | cons item rest ih =>
    have hw := Store_WriteAny_frame refused st h item a ha
    unfold absorbDataIn
    rcases hr : Store.WriteAny refused st h item with ⟨r, st1⟩
    rw [hr] at hw
    cases r with
    | some err => exact hw
    | none =>
      simp only
      rw [ih st1]
      exact hw

theorem computeCommitmentIn_frame {H : Hash} (refused : H.State → H.Item → H.State)
    (st : Store H) (hash : Nat) (data : List H.Item) (d : Decommitment) (a : Nat)
    (ha : a < st.next) :
    (computeCommitmentIn refused st hash data d).2.cells a = st.cells a := by
  have hne : a ≠ st.next := Nat.ne_of_lt ha
  have hclone : (Store.Clone st hash).1.cells a = st.cells a := by
    simp [Store.Clone, Function.update_noteq hne]
  have habs := absorbDataIn_frame refused (Store.Clone st hash).1 st.next data a hne
  unfold computeCommitmentIn
  have hfst : Store.Clone st hash = ((Store.Clone st hash).1, st.next) := rfl
  rw [hfst]
  simp only
  rcases hr : absorbDataIn refused (Store.Clone st hash).1 st.next data with ⟨r, st1⟩
  rw [hr] at habs
  cases r with
  | some err => simp only; rw [habs, hclone]
  | none =>
    simp only
    have hw := Store_WriteAny_frame refused st1 st.next (H.ofDecommitment d) a hne
    rcases hr2 : Store.WriteAny refused st1 st.next (H.ofDecommitment d) with ⟨r2, st2⟩
    rw [hr2] at hw
    cases r2 with
    | some err => simp only; rw [hw, habs, hclone]
    | none => simp only; rw [hw, habs, hclone]

theorem absorbDataIn_result {H : Hash} (refused : H.State → H.Item → H.State)
    (st : Store H) (h : Nat) (data : List H.Item) :
    match absorbInOrder H (st.cells h) data with
    | Except.error err => (absorbDataIn refused st h data).1 = some err
    | Except.ok s =>
      (absorbDataIn refused st h data).1 = none ∧
        (absorbDataIn refused st h data).2.cells h = s := by
  induction data generalizing st with
  | nil => exact ⟨rfl, rfl⟩
  | cons item rest ih =>
    simp only [absorbInOrder, absorbDataIn, Store.WriteAny]
    cases hw : H.writeAny (st.cells h) item with
    | error err => rfl
    | ok s1 =>
      simp only
      have := ih { st with cells := Function.update st.cells h s1 }
      simp only [Function.update_same] at this
      exact this

theorem computeCommitmentIn_result {H : Hash} (refused : H.State → H.Item → H.State)
    (st : Store H) (hash : Nat) (data : List H.Item) (d : Decommitment) :
    (computeCommitmentIn refused st hash data d).1
      = (computeCommitment H (st.cells hash) data d).1 := by
  rw [computeCommitment_fst, absorbInOrder_append]
  have habs := absorbDataIn_result refused (Store.Clone st hash).1 st.next data
  have hcell : (Store.Clone st hash).1.cells st.next = H.clone (st.cells hash) := by
    simp [Store.Clone]
  rw [hcell] at habs
  unfold computeCommitmentIn
  have hfst : Store.Clone st hash = ((Store.Clone st hash).1, st.next) := rfl
  rw [hfst]
  simp only
  rcases hr : absorbDataIn refused (Store.Clone st hash).1 st.next data with ⟨r, st1⟩
  rw [hr] at habs
  cases hs : absorbInOrder H (H.clone (st.cells hash)) data with
  | error err =>
    rw [hs] at habs
    simp only at habs
    rw [habs]
  | ok s =>
    rw [hs] at habs
    simp only at habs
    obtain ⟨hnone, hcells⟩ := habs
    rw [hnone]
    simp only [absorbInOrder, Store.WriteAny, hcells]
    cases H.writeAny s (H.ofDecommitment d) with
    | error err => rfl
    | ok s2 => simp [Store.Sum]

theorem CommitIn_frame {H : Hash} (refused : H.State → H.Item → H.State) (st : Store H)
    (hash : Nat) (rnd : RandRead) (data : List H.Item) (a : Nat) (ha : a < st.next) :
    (CommitIn refused st hash rnd data).2.cells a = st.cells a := by
  unfold CommitIn
  cases rnd with
  | fail err => rfl
  | filled fill =>
    have hf := computeCommitmentIn_frame refused st hash data
      ((List.range H.SecBytes).map fill) a ha
    simp only
    rcases hr : computeCommitmentIn refused st hash data ((List.range H.SecBytes).map fill)
      with ⟨r, st1⟩
    rw [hr] at hf
    cases r with
    | error err => exact hf
    | ok cc => exact hf

theorem DecommitIn_frame {H : Hash} (refused : H.State → H.Item → H.State) (st : Store H)
    (hash : Nat) (c : Commitment) (d : Decommitment) (data : List H.Item) (a : Nat)
    (ha : a < st.next) :
    (DecommitIn refused st hash c d data).2.cells a = st.cells a := by
  unfold DecommitIn
  cases Commitment.Validate H c with
  | some e => rfl
  | none =>
    cases Decommitment.Validate H d with
    | some e => rfl
    | none =>
      have hf := computeCommitmentIn_frame refused st hash data d a ha
      simp only
      rcases hr : computeCommitmentIn refused st hash data d with ⟨r, st1⟩
      rw [hr] at hf
      cases r with
      | error err => exact hf
      | ok cc => exact hf

theorem CommitIn_result {H : Hash} (refused : H.State → H.Item → H.State) (st : Store H)
    (hash : Nat) (rnd : RandRead) (data : List H.Item) :
    (CommitIn refused st hash rnd data).1 = (Commit H (st.cells hash) rnd data).1 := by
  unfold CommitIn Commit
  cases rnd with
  | fail err => rfl
  | filled fill =>
    have hres := computeCommitmentIn_result refused st hash data
      ((List.range H.SecBytes).map fill)
    simp only
    rcases hr : computeCommitmentIn refused st hash data ((List.range H.SecBytes).map fill)
      with ⟨r, st1⟩
    rcases hr2 : computeCommitment H (st.cells hash) data ((List.range H.SecBytes).map fill)
      with ⟨r2, calls⟩
    rw [hr, hr2] at hres
    simp only at hres
    subst hres
    cases r <;> rfl

theorem DecommitIn_result {H : Hash} (refused : H.State → H.Item → H.State) (st : Store H)
    (hash : Nat) (c : Commitment) (d : Decommitment) (data : List H.Item) :
    (DecommitIn refused st hash c d data).1 = (Decommit H (st.cells hash) c d data).1 := by
  unfold DecommitIn Decommit
  cases Commitment.Validate H c with
  | some e => rfl
  | none =>
    cases Decommitment.Validate H d with
    | some e => rfl
    | none =>
      have hres := computeCommitmentIn_result refused st hash data d
      simp only
      rcases hr : computeCommitmentIn refused st hash data d with ⟨r, st1⟩
      rcases hr2 : computeCommitment H (st.cells hash) data d with ⟨r2, calls⟩
      rw [hr, hr2] at hres
      simp only at hres
      subst hres
      cases r <;> rfl

/-- C16: with the receiver an allocated object of the store, `Commit` and `Decommit` return
what they return on the state of the receiver, and leave the state of the receiver (and of
every other object allocated before the call) as it was, whether they succeed or fail; so
the digest of the receiver and the outcome of any later `WriteAny` on it are the same as
before the call. -/
theorem Commit_Decommit_frame {H : Hash} (refused : H.State → H.Item → H.State)
    (st : Store H) (hash : Nat) (rnd : RandRead) (c : Commitment) (d : Decommitment)
    (data : List H.Item) (hvalid : hash < st.next) :
    ((CommitIn refused st hash rnd data).1 = (Commit H (st.cells hash) rnd data).1 ∧
      (∀ a, a < st.next → (CommitIn refused st hash rnd data).2.cells a = st.cells a) ∧
      Store.Sum (CommitIn refused st hash rnd data).2 hash = Store.Sum st hash ∧
      ∀ item, H.writeAny ((CommitIn refused st hash rnd data).2.cells hash) item
        = H.writeAny (st.cells hash) item) ∧
    ((DecommitIn refused st hash c d data).1 = (Decommit H (st.cells hash) c d data).1 ∧
      (∀ a, a < st.next → (DecommitIn refused st hash c d data).2.cells a = st.cells a) ∧
      Store.Sum (DecommitIn refused st hash c d data).2 hash = Store.Sum st hash ∧
      ∀ item, H.writeAny ((DecommitIn refused st hash c d data).2.cells hash) item
        = H.writeAny (st.cells hash) item) := by
  have hc := CommitIn_frame refused st hash rnd data hash hvalid
  have hd := DecommitIn_frame refused st hash c d data hash hvalid
  refine ⟨⟨CommitIn_result refused st hash rnd data,
      fun a ha => CommitIn_frame refused st hash rnd data a ha, ?_, ?_⟩,
    ⟨DecommitIn_result refused st hash c d data,
      fun a ha => DecommitIn_frame refused st hash c d data a ha, ?_, ?_⟩⟩
  · simp only [Store.Sum, hc]
  · intro item; rw [hc]
  · simp only [Store.Sum, hd]
  · intro item; rw [hd]

/-- C16, witness: on the store with one transcript that absorbed 1, 2, 3, committing to
`hello` allocates a second object, and that call and a call of `Decommit` leave the
transcript with 1, 2, 3 absorbed. -/
theorem Commit_Decommit_frame_witness :
    (0 : Nat) < oneTranscript.next ∧
    (CommitIn refusedKeeps oneTranscript 0 countFill [Value.bytes hello]).2.next = 2 ∧
    (CommitIn refusedKeeps oneTranscript 0 countFill [Value.bytes hello]).2.cells 0
      = [1, 2, 3] ∧
    (DecommitIn refusedKeeps oneTranscript 0 helloOpening.1 helloOpening.2
      [Value.bytes hello]).2.cells 0 = [1, 2, 3] :=
  ⟨by decide, rfl,
    (Commit_Decommit_frame refusedKeeps oneTranscript 0 countFill helloOpening.1
      helloOpening.2 [Value.bytes hello] (by decide)).1.2.1 0 (by decide),
    (Commit_Decommit_frame refusedKeeps oneTranscript 0 countFill helloOpening.1
      helloOpening.2 [Value.bytes hello] (by decide)).2.2.1 0 (by decide)⟩

end hash

namespace party

theorem getElem?_mid (A : List ID) (y : ID) (R : List ID) :
    (A ++ y :: R)[A.length]? = some y := by
  rw [List.getElem?_append_right (Nat.le_refl _)]
  simp

theorem getElem?_mid_succ (A : List ID) (y x : ID) (R : List ID) :
    (A ++ y :: x :: R)[A.length + 1]? = some x := by
  rw [List.getElem?_append_right (Nat.le_succ _)]
  simp

theorem Less_mid (A : List ID) (y x : ID) (R : List ID) :
    IDSlice.Less (A ++ y :: x :: R) (A.length + 1) A.length = some (decide (x < y)) := by
  simp only [IDSlice.Less, getElem?_mid, getElem?_mid_succ]

theorem Swap_mid (A : List ID) (y x : ID) (R : List ID) :
    IDSlice.Swap (A ++ y :: x :: R) (A.length + 1) A.length = some (A ++ x :: y :: R) := by
  simp only [IDSlice.Swap, getElem?_mid, getElem?_mid_succ]
  simp [List.set_append]

/-- The inner loop started at `x`, which stands right after `A`, moves `x` left past the
elements of `A` that are greater and stops behind the first one that is not. -/
theorem insertionInner_mid (j : Nat) (A : List ID) (x : ID) (R : List ID)
    (hA : A.length = j) :
    ∃ A1 A2, A = A1 ++ A2 ∧ insertionInner 0 j (A ++ x :: R) = some (A1 ++ x :: (A2 ++ R)) ∧
      (∀ a ∈ A2, x < a) ∧ (∀ y ∈ A1.getLast?, y ≤ x) := by
  induction j generalizing A R with
  | zero =>
    have hnil : A = [] := List.length_eq_zero.mp hA
    subst hnil
    exact ⟨[], [], rfl, rfl, by simp, by simp⟩
  | succ j ih =>
    obtain ⟨A0, y, rfl⟩ : ∃ A0 y, A = A0 ++ [y] := by
      rcases List.eq_nil_or_concat A with h | ⟨A0, y, h⟩
      · rw [h] at hA; simp at hA
      · exact ⟨A0, y, by simpa using h⟩
    have hA0 : A0.length = j := by simpa using hA
    have hshape : A0 ++ [y] ++ x :: R = A0 ++ y :: x :: R := by simp
    rw [hshape]
    subst hA0
    by_cases hlt : x < y
    · obtain ⟨A1, A2, hsplit, hrun, hgt, hle⟩ := ih A0 (y :: R) rfl
      refine ⟨A1, A2 ++ [y], by rw [hsplit]; simp, ?_, ?_, hle⟩
      · simp only [insertionInner, Less_mid, Swap_mid, hlt, decide_True,
          Nat.succ_pos, gt_iff_lt, if_true]
        rw [hrun]
        simp
      · intro a ha
        rcases List.mem_append.mp ha with h | h
        · exact hgt a h
        · simp only [List.mem_singleton] at h
          rw [h]
          exact hlt
    · refine ⟨A0 ++ [y], [], by simp, ?_, by simp, ?_⟩
      · simp only [insertionInner, Less_mid, hlt, decide_False, Nat.succ_pos, gt_iff_lt,
          if_true]
        simp
      · intro z hz
        have hlast : (A0 ++ [y]).getLast? = some y := by simp
        rw [hlast] at hz
        simp only [Option.mem_def, Option.some.injEq] at hz
        rw [← hz]
        exact not_lt.mp hlt

theorem sorted_insert_mid (A1 A2 : List ID) (x : ID)
    (hsorted : List.Sorted (· ≤ ·) (A1 ++ A2))
    (hgt : ∀ a ∈ A2, x < a) (hle : ∀ y ∈ A1.getLast?, y ≤ x) :
    List.Sorted (· ≤ ·) (A1 ++ x :: A2) := by
  unfold List.Sorted at hsorted ⊢
  rw [List.pairwise_append] at hsorted ⊢
  obtain ⟨h1, h2, h12⟩ := hsorted
  have hA1 : ∀ a ∈ A1, a ≤ x := by
    intro a ha
    rcases List.eq_nil_or_concat A1 with h | ⟨B, y, h⟩
    · rw [h] at ha; simp at ha
    · have hy : y ≤ x := hle y (by rw [h]; simp)
      rw [h, List.concat_eq_append] at ha h1
      rcases List.mem_append.mp ha with hB | hB
      · exact le_trans ((List.pairwise_append.mp h1).2.2 a hB y (by simp)) hy
      · simp only [List.mem_singleton] at hB
        rw [hB]
        exact hy
  refine ⟨h1, List.pairwise_cons.mpr ⟨fun a ha => le_of_lt (hgt a ha), h2⟩, ?_⟩
  intro a ha b hb
  rcases List.mem_cons.mp hb with h | h
  · rw [h]
    exact hA1 a ha
  · exact h12 a ha b h

/-- The outer loop at `i`, with the first `i` elements sorted, returns a sorted permutation
of the slice. -/
theorem insertionOuter_sorted (fuel : Nat) (P Q : List ID)
    (hfuel : Q.length = fuel) (hP : List.Sorted (· ≤ ·) P) :
    ∃ r, insertionOuter 0 (P.length + Q.length) fuel P.length (P ++ Q) = some r ∧
      List.Sorted (· ≤ ·) r ∧ List.Perm r (P ++ Q) := by
  induction fuel generalizing P Q with
  | zero =>
    have hnil : Q = [] := List.length_eq_zero.mp hfuel
    subst hnil
    exact ⟨P, by simp [insertionOuter], hP, by simp⟩
  | succ fuel ih =>
    match Q, hfuel with
    | x :: R, hfuel =>
      obtain ⟨A1, A2, hsplit, hrun, hgt, hle⟩ := insertionInner_mid P.length P x R rfl
      have hR : R.length = fuel := by simpa using hfuel
      have hsorted : List.Sorted (· ≤ ·) (A1 ++ x :: A2) :=
        sorted_insert_mid A1 A2 x (hsplit ▸ hP) hgt hle
      obtain ⟨r, hr, hrs, hrp⟩ := ih (A1 ++ x :: A2) R hR hsorted
      have hlen : (A1 ++ x :: A2).length = P.length + 1 := by
        rw [hsplit]; simp; omega
      refine ⟨r, ?_, hrs, ?_⟩
      · have hlt : P.length < P.length + (x :: R).length := by simp
        simp only [insertionOuter, hlt, if_true, hrun]
        rw [hlen] at hr
        have hb : P.length + 1 + R.length = P.length + (x :: R).length := by
          simp; omega
        rw [hb] at hr
        simpa using hr
      · refine hrp.trans ?_
        rw [hsplit]
        simp only [List.append_assoc, List.cons_append]
        exact List.Perm.append_left A1 List.perm_middle.symm

theorem Copy_eq (partyIDs : IDSlice) : IDSlice.Copy partyIDs = partyIDs := by
  unfold IDSlice.Copy
  exact List.ofFn_get partyIDs

theorem sortSort_sorted (data : IDSlice) :
    ∃ r, sortSort data = some r ∧ List.Sorted (· ≤ ·) r ∧ List.Perm r data := by
  cases data with
  | nil => exact ⟨[], rfl, List.sorted_nil, List.Perm.refl _⟩
  | cons x Q =>
    have h := insertionOuter_sorted Q.length [x] Q rfl (List.sorted_singleton x)
    simpa [sortSort, insertionSort, IDSlice.Len, Nat.add_comm] using h

/-- C10: `NewIDSlice` returns a slice (the sort does not panic) that is sorted in
non-decreasing ID order and is a permutation of the input, so it has the same IDs with the
same multiplicities and the same length. -/
theorem NewIDSlice_sorted_perm (partyIDs : List ID) :
    ∃ ids, NewIDSlice partyIDs = some ids ∧ List.Sorted (· ≤ ·) ids ∧
      List.Perm ids partyIDs ∧
      (∀ id, ids.countP (fun y => decide (y = id))
        = partyIDs.countP (fun y => decide (y = id))) ∧
      ids.length = partyIDs.length := by
  obtain ⟨r, hr, hsorted, hperm⟩ := sortSort_sorted partyIDs
  refine ⟨r, ?_, hsorted, hperm, fun id => hperm.countP_eq _, hperm.length_eq⟩
  simp only [NewIDSlice, IDSlice.sort, Copy_eq, hr]

/-- The binary search loop on a monotone `f`, entered with `f` false below `i` and true
from `j` on, returns the least index at which `f` is true (`n` when there is none). -/
theorem searchLoop_least (n : Nat) (f : Fin n → Bool)
    (hmono : ∀ a b : Fin n, a ≤ b → f a = true → f b = true)
    (fuel i j : Nat) (hj : j ≤ n) (hij : i ≤ j) (hfuel : j - i ≤ fuel)
    (hlo : ∀ k : Fin n, k.val < i → f k = false)
    (hhi : ∀ k : Fin n, j ≤ k.val → f k = true) :
    searchLoop n f fuel i j hj ≤ n ∧
      (∀ k : Fin n, k.val < searchLoop n f fuel i j hj → f k = false) ∧
      (∀ k : Fin n, searchLoop n f fuel i j hj ≤ k.val → f k = true) := by
  induction fuel generalizing i j with
  | zero =>
    have heq : i = j := by omega
    subst heq
    exact ⟨hj, hlo, hhi⟩
  | succ fuel ih =>
    unfold searchLoop
    by_cases h : i < j
    · simp only [h, dite_true]
      have hm : (i + j) / 2 < n := by omega
      cases hf : f ⟨(i + j) / 2, hm⟩ with
      | false =>
        simp only [Bool.not_false, if_true]
        apply ih ((i + j) / 2 + 1) j hj (by omega) (by omega) _ hhi
        intro k hk
        cases hfk : f k with
        | false => rfl
        | true =>
          have hle : k ≤ (⟨(i + j) / 2, hm⟩ : Fin n) := by
            rw [Fin.le_def]
            simp only
            omega
          rw [hmono k _ hle hfk] at hf
          exact absurd hf (by simp)
      | true =>
        simp only [Bool.not_true, Bool.false_eq_true, if_false]
        apply ih i ((i + j) / 2) (by omega) (by omega) (by omega) hlo
        intro k hk
        have hle : (⟨(i + j) / 2, hm⟩ : Fin n) ≤ k := by
          rw [Fin.le_def]
          exact hk
        exact hmono _ k hle hf
    · simp only [h, dite_false]
      have heq : i = j := by omega
      subst heq
      exact ⟨hj, hlo, hhi⟩

theorem sortSearch_least (n : Nat) (f : Fin n → Bool)
    (hmono : ∀ a b : Fin n, a ≤ b → f a = true → f b = true) :
    sortSearch n f ≤ n ∧ (∀ k : Fin n, k.val < sortSearch n f → f k = false) ∧
      (∀ k : Fin n, sortSearch n f ≤ k.val → f k = true) := by
  unfold sortSearch
  exact searchLoop_least n f hmono n 0 n (Nat.le_refl _) (Nat.zero_le _) (by omega)
    (fun k hk => absurd hk (Nat.not_lt_zero _)) (fun k hk => absurd k.isLt (by omega))

/-- On a slice in non-decreasing order, `search` reports `true` exactly for its elements. -/
theorem search_snd_iff (partyIDs : IDSlice) (x : ID)
    (hsorted : List.Sorted (· ≤ ·) partyIDs) :
    (partyIDs.search x).2 = true ↔ x ∈ partyIDs := by
  have hmono : ∀ a b : Fin partyIDs.length, a ≤ b →
      decide (partyIDs.get a ≥ x) = true → decide (partyIDs.get b ≥ x) = true := by
    intro a b hab ha
    simp only [ge_iff_le, decide_eq_true_eq] at ha ⊢
    exact le_trans ha (hsorted.rel_get_of_le hab)
  obtain ⟨hn, hbelow, hfrom⟩ := sortSearch_least partyIDs.length
    (fun i => decide (partyIDs.get i ≥ x)) hmono
  unfold IDSlice.search
  generalize sortSearch partyIDs.length (fun i => decide (partyIDs.get i ≥ x)) = r
    at hbelow hfrom hn ⊢
  constructor
  · intro h
    by_cases hc : r < partyIDs.length ∧ partyIDs[r]? = some x
    · have h2 := hc.2
      rw [List.getElem?_eq_getElem hc.1] at h2
      simp only [Option.some.injEq] at h2
      rw [← h2]
      exact List.getElem_mem ..
    · simp [hc] at h
  · intro hx
    obtain ⟨k, hk⟩ := List.get_of_mem hx
    have hrk : r ≤ k.val := by
      by_contra hlt
      have hfalse := hbelow k (by omega)
      simp only [hk, ge_iff_le, le_refl, decide_True] at hfalse
      exact absurd hfalse (by simp)
    have hr : r < partyIDs.length := lt_of_le_of_lt hrk k.isLt
    have hge : x ≤ partyIDs.get ⟨r, hr⟩ := by
      have := hfrom ⟨r, hr⟩ (Nat.le_refl _)
      simpa using this
    have hle : partyIDs.get ⟨r, hr⟩ ≤ x := by
      have := hsorted.rel_get_of_le (a := ⟨r, hr⟩) (b := k) (by rw [Fin.le_def]; exact hrk)
      rwa [hk] at this
    have heq : partyIDs[r]? = some x := by
      rw [List.getElem?_eq_getElem hr]
      exact congrArg some (le_antisymm hle hge)
    simp [hr, heq]

/-- C9: for a valid slice (strictly increasing: sorted, no duplicates), `Contains` returns
true exactly when every ID of `ids` is an element of the slice; so it returns true for the
empty list and false when one of the IDs is absent. -/
theorem Contains_iff (partyIDs : IDSlice) (ids : List ID)
    (hvalid : List.Sorted (· < ·) partyIDs) :
    (partyIDs.Contains ids = true ↔ ∀ id ∈ ids, id ∈ partyIDs) ∧
      partyIDs.Contains [] = true ∧
      ((∃ id ∈ ids, id ∉ partyIDs) → partyIDs.Contains ids = false) := by
  have hsorted : List.Sorted (· ≤ ·) partyIDs := hvalid.imp (fun h => le_of_lt h)
  have hiff : ∀ l : List ID, partyIDs.Contains l = true ↔ ∀ id ∈ l, id ∈ partyIDs := by
    intro l
    induction l with
    | nil => simp [IDSlice.Contains]
    | cons id rest ih =>
      unfold IDSlice.Contains
      by_cases hfound : (partyIDs.search id).2 = true
      · have hmem := (search_snd_iff partyIDs id hsorted).mp hfound
        simp [hfound, ih, hmem]
      · have hmem : id ∉ partyIDs := fun h =>
          hfound ((search_snd_iff partyIDs id hsorted).mpr h)
        simp [hfound, hmem]
  refine ⟨hiff ids, rfl, ?_⟩
  rintro ⟨id, hid, habsent⟩
  have hne : ¬ partyIDs.Contains ids = true := fun h => habsent ((hiff ids).mp h id hid)
  simpa using hne

/-- C9, witness: the valid slice of the IDs `""`, `"\x01"`, `"\x01\x02"`, `"\x02\x00"`,
`"\x03"` contains `"\x03"` and `""` together, and does not contain them together with the
absent `"\x04"`. -/
theorem Contains_iff_witness :
    List.Sorted (· < ·) ([[], [1], [1, 2], [2, 0], [3]] : IDSlice) ∧
      IDSlice.Contains [[], [1], [1, 2], [2, 0], [3]] [[3], []] = true ∧
      IDSlice.Contains [[], [1], [1, 2], [2, 0], [3]] [[3], [], [4]] = false :=
  ⟨by decide, by decide,
    (Contains_iff [[], [1], [1, 2], [2, 0], [3]] [[3], [], [4]] (by decide)).2.2
      ⟨[4], by decide, by decide⟩⟩

theorem validOrderLoop_iff (s : IDSlice) :
    validOrderLoop s = true ↔ List.Sorted (· < ·) s := by
  induction s with
  | nil => simp [validOrderLoop]
  | cons a rest ih =>
    cases rest with
    | nil => simp [validOrderLoop]
    | cons b rest2 =>
      unfold validOrderLoop
      by_cases hab : a ≥ b
      · have hnot : ¬ a < b := not_lt.mpr hab
        simp only [hab, if_true, Bool.false_eq_true, false_iff]
        intro hs
        exact hnot (List.rel_of_sorted_cons hs b (List.mem_cons_self b rest2))
      · have hlt : a < b := not_le.mp hab
        simp only [hab, if_false, ih]
        constructor
        · intro hs
          refine List.Sorted.cons hlt hs |> fun h => h
        · intro hs
          exact List.Sorted.of_cons hs

theorem scalarCollides_iff (O : Scalars) (curve : O.Curve) (x : ID) (l : IDSlice) :
    scalarCollides O curve x l = true ↔
      ∃ y ∈ l, O.Equal (O.scalar x curve) (O.scalar y curve) = true := by
  induction l with
  | nil => simp [scalarCollides]
  | cons y rest ih =>
    unfold scalarCollides
    by_cases h : O.Equal (O.scalar x curve) (O.scalar y curve) = true
    · simp [h]
    · simp [h, ih]

theorem validScalarLoop_iff (O : Scalars) (curve : O.Curve) (s : IDSlice) :
    validScalarLoop O curve s = true ↔
      List.Pairwise (fun a b => O.Equal (O.scalar a curve) (O.scalar b curve) = false) s := by
  induction s with
  | nil => simp [validScalarLoop]
  | cons x rest ih =>
    unfold validScalarLoop
    rw [List.pairwise_cons, ← ih]
    by_cases h : scalarCollides O curve x rest = true
    · simp only [h, if_true, Bool.false_eq_true, false_iff, not_and]
      intro hall
      obtain ⟨y, hy, hyeq⟩ := (scalarCollides_iff O curve x rest).mp h
      rw [hall y hy] at hyeq
      exact absurd hyeq (by simp)
    · simp only [h, if_false, Bool.false_eq_true, true_and, iff_and_self]
      intro _ y hy
      cases hyeq : O.Equal (O.scalar x curve) (O.scalar y curve) with
      | false => rfl
      | true => exact absurd ((scalarCollides_iff O curve x rest).mpr ⟨y, hy, hyeq⟩) h

theorem Valid_true_iff (O : Scalars) (partyIDs : IDSlice) (curve : O.Curve) :
    partyIDs.Valid O curve = true ↔
      List.Sorted (· < ·) partyIDs ∧
      List.Pairwise (fun a b => O.Equal (O.scalar a curve) (O.scalar b curve) = false)
        partyIDs := by
  unfold IDSlice.Valid
  rw [← validOrderLoop_iff, ← validScalarLoop_iff]
  cases validOrderLoop partyIDs <;> simp

/-- What `Valid` computes: it returns true exactly when the slice is strictly increasing by
ID (sorted, no duplicate) and no two of its IDs at different positions have scalars on the
curve that are `Equal`; so a slice for which it returns true is sorted and has no duplicate. -/
theorem Valid_iff (O : Scalars) (partyIDs : IDSlice) (curve : O.Curve) :
    (partyIDs.Valid O curve = true ↔
      List.Sorted (· < ·) partyIDs ∧
      List.Pairwise (fun a b => O.Equal (O.scalar a curve) (O.scalar b curve) = false)
        partyIDs) ∧
    (partyIDs.Valid O curve = true → List.Sorted (· ≤ ·) partyIDs ∧ partyIDs.Nodup) := by
  refine ⟨Valid_true_iff O partyIDs curve, fun h => ?_⟩
  have hs := ((Valid_true_iff O partyIDs curve).mp h).1
  exact ⟨hs.imp (fun hlt => le_of_lt hlt), hs.imp (fun hlt => ne_of_lt hlt)⟩

/-- C11: the slice of the two IDs `"\\x00\\x01"` and `"\\x01"` is sorted and has no
duplicate, and `Valid` returns false for it on secp256k1, both IDs having the scalar 1: the
second loop of `Valid` refuses a slice that its comment, `Valid returns true if the IDSlice
is sorted and does not contain any duplicates`, accepts. -/
theorem Valid_false_on_sorted :
    List.Sorted (· ≤ ·) ([[0, 1], [1]] : IDSlice) ∧ ([[0, 1], [1]] : IDSlice).Nodup ∧
      IDSlice.Valid numberScalars [[0, 1], [1]] secp256k1Order = false := by
  decide

/-- Whatever `ID.Scalar` is, when a curve has finitely many scalars and `Equal` holds of a
scalar and itself, some slice that is sorted without duplicates is not valid. -/
theorem exists_sorted_not_Valid (O : Scalars) [Finite O.Scalar] (curve : O.Curve)
    (hrefl : ∀ x, O.Equal x x = true) :
    ∃ s : IDSlice, List.Sorted (· < ·) s ∧ s.Valid O curve = false := by
  obtain ⟨a, b, hne, hab⟩ := Finite.exists_ne_map_eq_of_infinite (fun id => O.scalar id curve)
  have hcollide : ∀ u v : ID, u < v → O.scalar u curve = O.scalar v curve →
      List.Sorted (· < ·) [u, v] ∧ IDSlice.Valid O [u, v] curve = false := by
    intro u v huv hsc
    refine ⟨by simp [huv], ?_⟩
    have hnot : ¬ IDSlice.Valid O [u, v] curve = true := by
      rw [Valid_true_iff]
      rintro ⟨-, hp⟩
      have := (List.pairwise_cons.mp hp).1 v (by simp)
      rw [hsc, hrefl] at this
      exact absurd this (by simp)
    simpa using hnot
  rcases lt_or_gt_of_ne hne with h | h
  · exact ⟨[a, b], hcollide a b h hab⟩
  · exact ⟨[b, a], hcollide b a h hab.symm⟩

/-- The slice of the IDs `"\\x01"` and `"\\x02"` is valid on secp256k1, and it is sorted
without duplicate. -/
theorem Valid_iff_witness :
    IDSlice.Valid numberScalars [[1], [2]] secp256k1Order = true ∧
      List.Sorted (· ≤ ·) ([[1], [2]] : IDSlice) ∧ ([[1], [2]] : IDSlice).Nodup :=
  ⟨by decide, (Valid_iff numberScalars [[1], [2]] secp256k1Order).2 (by decide)⟩

theorem removeLoop_eq (id : ID) (l : List ID) (acc : IDSlice) :
    removeLoop id l acc = acc ++ l.filter (fun x => decide (x ≠ id)) := by
  induction l generalizing acc with
  | nil => simp [removeLoop]
  | cons x rest ih =>
    unfold removeLoop
    by_cases hx : x = id
    · simp [hx, ih]
    · simp [hx, ih]

theorem Remove_eq_filter (partyIDs : IDSlice) (id : ID) :
    partyIDs.Remove id = partyIDs.filter (fun x => decide (x ≠ id)) := by
  simp [IDSlice.Remove, removeLoop_eq]

/-- C12: `Remove` returns the elements of the slice that differ from `id`, in their order.
When `id` occurs in a valid slice the result is the slice with that one element taken out,
one shorter; when `id` does not occur the result equals the slice. -/
theorem Remove_spec (partyIDs : IDSlice) (id : ID) :
    partyIDs.Remove id = partyIDs.filter (fun x => decide (x ≠ id)) ∧
    (List.Sorted (· < ·) partyIDs → id ∈ partyIDs →
      (∃ before after, partyIDs = before ++ id :: after ∧
        partyIDs.Remove id = before ++ after) ∧
      (partyIDs.Remove id).length = partyIDs.length - 1) ∧
    (id ∉ partyIDs → partyIDs.Remove id = partyIDs) := by
  refine ⟨Remove_eq_filter partyIDs id, ?_, ?_⟩
  · intro hvalid hmem
    obtain ⟨before, after, hsplit⟩ := List.append_of_mem hmem
    have hnodup : partyIDs.Nodup := hvalid.imp (fun hlt => ne_of_lt hlt)
    rw [hsplit] at hnodup
    have hb : id ∉ before := fun h =>
      (List.nodup_append.mp hnodup).2.2 h (List.mem_cons_self id after) 
    have ha : id ∉ after :=
      (List.nodup_cons.mp (List.nodup_append.mp hnodup).2.1).1
    have hfb : before.filter (fun x => decide (x ≠ id)) = before :=
      List.filter_eq_self.mpr (fun x hx => by
        simp only [ne_eq, decide_not, Bool.not_eq_true', decide_eq_false_iff_not]
        exact fun h => hb (h ▸ hx))
    have hfa : after.filter (fun x => decide (x ≠ id)) = after :=
      List.filter_eq_self.mpr (fun x hx => by
        simp only [ne_eq, decide_not, Bool.not_eq_true', decide_eq_false_iff_not]
        exact fun h => ha (h ▸ hx))
    have hrem : partyIDs.Remove id = before ++ after := by
      rw [Remove_eq_filter, hsplit, List.filter_append, List.filter_cons, hfb, hfa]
      simp
    refine ⟨⟨before, after, hsplit, hrem⟩, ?_⟩
    rw [hrem, hsplit]
    simp
  · intro habsent
    rw [Remove_eq_filter]
    exact List.filter_eq_self.mpr (fun x hx => by
      simp only [ne_eq, decide_not, Bool.not_eq_true', decide_eq_false_iff_not]
      exact fun h => habsent (h ▸ hx))

/-- C12, witness: removing `"\\x02"` from the valid slice of `"\\x01"`, `"\\x02"`, `"\\x03"`
leaves `"\\x01"`, `"\\x03"`, and removing the absent `"\\x04"` leaves the slice as it is. -/
theorem Remove_spec_witness :
    IDSlice.Remove [[1], [2], [3]] [2] = [[1], [3]] ∧
      (IDSlice.Remove [[1], [2], [3]] [2]).length = 3 - 1 ∧
      IDSlice.Remove [[1], [2], [3]] [4] = [[1], [2], [3]] :=
  ⟨by decide, ((Remove_spec [[1], [2], [3]] [2]).2.1 (by decide) (by decide)).2,
    (Remove_spec [[1], [2], [3]] [4]).2.2 (by decide)⟩

theorem writeIdLen_Buffer (buf : List Byte) (id : ID) (h : id.length ≤ 255) :
    writeIdLen Buffer buf id = ((1, none), buf ++ [Fin.ofNat id.length]) := by
  have hn : ¬ id.length > 255 := by omega
  simp [writeIdLen, hn, Buffer]

theorem writeToLoop_Buffer (ids : List ID) (nAll : Nat) (buf : List Byte)
    (h : ∀ id ∈ ids, id.length ≤ 255) :
    writeToLoop Buffer ids nAll buf =
      ((nAll + (ids.map List.length).sum, none), buf ++ encodeIDs ids) := by
  induction ids generalizing nAll buf with
  | nil => simp [writeToLoop, encodeIDs]
  | cons id rest ih =>
    have hid : id.length ≤ 255 := h id (List.mem_cons_self id rest)
    have hrest : ∀ x ∈ rest, x.length ≤ 255 := fun x hx => h x (List.mem_cons_of_mem id hx)
    simp only [writeToLoop, writeIdLen_Buffer buf id hid]
    have hw : Buffer.Write (buf ++ [Fin.ofNat id.length]) id =
        ((id.length, none), buf ++ [Fin.ofNat id.length] ++ id) := rfl
    simp only [hw, ih _ _ hrest, encodeIDs, List.map_cons, List.sum_cons, Nat.add_assoc]
    congr 1
    show (buf ++ [Fin.ofNat id.length] ++ id ++ encodeIDs rest : List Byte) = _
    simp

theorem length_bigEndianUint64 (v : Nat) : (bigEndianUint64 v).length = 8 := by
  simp [bigEndianUint64]

theorem length_encodeIDs (ids : List ID) :
    (encodeIDs ids).length = (ids.map (fun id => 1 + id.length)).sum := by
  induction ids with
  | nil => rfl
  | cons id rest ih => simp [encodeIDs, ih]; omega

theorem sum_succ_length (ids : List ID) :
    (ids.map (fun id => 1 + id.length)).sum = ids.length + (ids.map List.length).sum := by
  induction ids with
  | nil => rfl
  | cons id rest ih =>
    simp only [List.map_cons, List.sum_cons, List.length_cons, ih]
    omega

theorem WriteTo_Buffer (ids : IDSlice) (buf : List Byte)
    (h : ∀ id ∈ ids, id.length ≤ 255) :
    IDSlice.WriteTo Buffer (some ids) buf =
      ((4 + (ids.map List.length).sum, none), buf ++ idSliceEncoding ids) := by
  have hw : binaryWriteUint64 Buffer buf ids.length =
      (none, buf ++ bigEndianUint64 ids.length) := rfl
  simp only [IDSlice.WriteTo, hw, writeToLoop_Buffer ids 4 _ h, idSliceEncoding,
    List.append_assoc]

/-- C13: for a non-nil slice whose IDs have at most 255 bytes each, `WriteTo` on a buffer
reports no error, writes the encoding of the slice, which has 8 bytes and one more than its
length for each ID, and returns the count 4 plus the lengths of the IDs: the count falls
short of the bytes written by 4 and one for each ID. -/
theorem WriteTo_count_short (ids : IDSlice) (buf : List Byte)
    (h : ∀ id ∈ ids, id.length ≤ 255) :
    (IDSlice.WriteTo Buffer (some ids) buf).1.2 = none ∧
    (IDSlice.WriteTo Buffer (some ids) buf).2 = buf ++ idSliceEncoding ids ∧
    (idSliceEncoding ids).length = encodingSize ids ∧
    (IDSlice.WriteTo Buffer (some ids) buf).1.1 = 4 + (ids.map List.length).sum ∧
    (IDSlice.WriteTo Buffer (some ids) buf).1.1 + 4 + ids.length =
      (IDSlice.WriteTo Buffer (some ids) buf).2.length - buf.length := by
  have hlen : (idSliceEncoding ids).length = encodingSize ids := by
    simp [idSliceEncoding, encodingSize, length_bigEndianUint64, length_encodeIDs]
  rw [WriteTo_Buffer ids buf h]
  refine ⟨rfl, rfl, hlen, rfl, ?_⟩
  simp only [List.length_append, hlen, encodingSize]
  have hsum := sum_succ_length ids
  omega

/-- C13, at the slice of the IDs `"\\x01\\x02"` and `"\\x03"`: `WriteTo` writes 13 bytes into
an empty buffer and returns the count 7. -/
theorem WriteTo_count_short_witness :
    IDSlice.WriteTo Buffer (some [[1, 2], [3]]) [] =
      ((7, none), [0, 0, 0, 0, 0, 0, 0, 2, 2, 1, 2, 1, 3]) ∧
    (IDSlice.WriteTo Buffer (some [[1, 2], [3]]) []).1.1 + 4 + 2 = 13 - 0 :=
  ⟨rfl, (WriteTo_count_short [[1, 2], [3]] [] (by decide)).2.2.2.2⟩

theorem encodeIDs_injective (ids1 ids2 : List ID)
    (h1 : ∀ id ∈ ids1, id.length ≤ 255) (h2 : ∀ id ∈ ids2, id.length ≤ 255)
    (heq : encodeIDs ids1 = encodeIDs ids2) : ids1 = ids2 := by
  induction ids1 generalizing ids2 with
  | nil =>
    cases ids2 with
    | nil => rfl
    | cons id2 rest2 => simp [encodeIDs] at heq
  | cons id1 rest1 ih =>
    cases ids2 with
    | nil => simp [encodeIDs] at heq
    | cons id2 rest2 =>
      simp only [encodeIDs, List.cons.injEq] at heq
      obtain ⟨hlen, happ⟩ := heq
      have hl1 : id1.length ≤ 255 := h1 id1 (List.mem_cons_self id1 rest1)
      have hl2 : id2.length ≤ 255 := h2 id2 (List.mem_cons_self id2 rest2)
      have hlen2 : id1.length = id2.length := by
        have hv := congrArg Fin.val hlen
        simp only [Fin.ofNat, Nat.succ_eq_add_one] at hv
        omega
      obtain ⟨hid, hrest⟩ := List.append_inj happ hlen2
      rw [hid, ih rest2 (fun x hx => h1 x (List.mem_cons_of_mem id1 hx))
        (fun x hx => h2 x (List.mem_cons_of_mem id2 hx)) hrest]

/-- C15: for a non-nil slice whose IDs have at most 255 bytes each, `WriteTo` writes the
8-byte big-endian count and then, for each ID, one length byte followed by the bytes of the
ID; and two such slices for which `WriteTo` writes the same bytes are equal. -/
theorem WriteTo_injective (ids1 ids2 : IDSlice) (buf : List Byte)
    (h1 : ∀ id ∈ ids1, id.length ≤ 255) (h2 : ∀ id ∈ ids2, id.length ≤ 255) :
    (IDSlice.WriteTo Buffer (some ids1) buf).2 = buf ++ idSliceEncoding ids1 ∧
    ((IDSlice.WriteTo Buffer (some ids1) buf).2 = (IDSlice.WriteTo Buffer (some ids2) buf).2 →
      ids1 = ids2) := by
  rw [WriteTo_Buffer ids1 buf h1, WriteTo_Buffer ids2 buf h2]
  refine ⟨rfl, fun heq => ?_⟩
  have heq := List.append_cancel_left heq
  unfold idSliceEncoding at heq
  have hlen : (bigEndianUint64 ids1.length).length = (bigEndianUint64 ids2.length).length := by
    rw [length_bigEndianUint64, length_bigEndianUint64]
  exact encodeIDs_injective ids1 ids2 h1 h2 (List.append_inj heq hlen).2

/-- C15, witness: the slice of `"\\x01\\x02"` and `"\\x03"` and the slice of `"\\x01"` and
`"\\x02\\x03"`, which hold the same bytes split differently, are written differently. -/
theorem WriteTo_injective_witness :
    (IDSlice.WriteTo Buffer (some [[1, 2], [3]]) []).2 =
      [0, 0, 0, 0, 0, 0, 0, 2, 2, 1, 2, 1, 3] ∧
    (IDSlice.WriteTo Buffer (some [[1, 2], [3]]) []).2 ≠
      (IDSlice.WriteTo Buffer (some [[1], [2, 3]]) []).2 :=
  ⟨rfl, fun heq => absurd
    ((WriteTo_injective [[1, 2], [3]] [[1], [2, 3]] [] (by decide) (by decide)).2 heq)
    (by decide)⟩

end party

end MultiPartySig